import Mathlib

/-!
Verification of `src/backend/converter.py` (jsf-convert): a single-pass
converter that either copies a PDF input through byte-for-byte or decodes
the input as text, hard-wraps it at a fixed character width, and lays the
segments out on fixed-size pages.

Modelling conventions:
* Python `bytes` values are `List (Fin 256)`; Python `str` values are
  `List Char` (one entry per Unicode code point, matching Python `len`
  and slicing semantics).
* The standard-library codecs used by the source (`utf-8-sig`, `utf-16`,
  and the `errors="ignore"` fallback) are external to the repository and
  are taken as parameters: an arbitrary `List (Fin 256) → Option (List Char)`
  models a decoder that either succeeds or raises UnicodeDecodeError, and
  an arbitrary total function models the never-failing `errors="ignore"`
  decode.  All theorems about the resolver hold for every choice of these
  parameters.  `latin-1` decoding, whose totality the spec relies on, is
  modelled concretely (byte b maps to code point b).
* The reportlab canvas is modelled as the sequence of drawing operations
  it receives: `drawString` appends a `DrawOp` to the current page,
  `showPage` finalizes the current page, `save` finalizes the document.
  The serialization of the finished page list to PDF bytes is external
  (reportlab) and is a parameter.
* Filesystem writes are modelled as an ordered effect list; reads go
  through a read oracle `Path → Option bytes` (`None` = file absent).
  `Path.expanduser().resolve()` is treated as the identity on the opaque
  path strings, which no claim inspects.
-/

namespace Converter

/-! ## Bytes and the PDF signature (converter.py line 37) -/

abbrev Byte := Fin 256

/-- The 5-byte ASCII signature b"%PDF-" from line 37 of the source. -/
def pdfSignature : List Byte := [37, 80, 68, 70, 45]

/-- Python `data.startswith(sig)`. -/
def startswith (data sig : List Byte) : Bool :=
  data.take sig.length == sig

/-! ## Python str.splitlines (used by wrap_lines, line 20)

Python splits on the line boundaries \n, \r, \r\n, \v, \f, \x1c, \x1d,
\x1e, \x85, U+2028, U+2029, and produces no trailing empty line when the
text ends with a boundary. -/

/-- Membership of a character in Python's str.splitlines boundary set. -/
def isLineBreak (c : Char) : Bool :=
  c.toNat == 10 || c.toNat == 13 || c.toNat == 11 || c.toNat == 12 ||
    c.toNat == 28 || c.toNat == 29 || c.toNat == 30 || c.toNat == 133 ||
    c.toNat == 8232 || c.toNat == 8233

/-- Prepend a character to the first piece of a piece list. -/
def consHead (c : Char) : List (List Char) → List (List Char)
  | [] => [[c]]
  | p :: ps => (c :: p) :: ps

/-- Split text at every line boundary, one piece per stretch between
boundaries (n boundaries give n+1 pieces); a \r immediately followed by
\n counts as a single boundary. -/
def splitPieces : List Char → List (List Char)
  | [] => [[]]
  | '\r' :: '\n' :: cs => [] :: splitPieces cs
  | c :: cs =>
      if isLineBreak c then [] :: splitPieces cs
      else consHead c (splitPieces cs)

/-- Python `text.splitlines()`: the pieces, minus the final empty piece
that arises when the text is empty or ends with a line boundary. -/
def splitlines (cs : List Char) : List (List Char) :=
  let ps := splitPieces cs
  if ps.getLast? = some [] then ps.dropLast else ps

/-- Python `text.splitlines() or [""]` (line 20): an empty split result
is replaced by a single empty line. -/
def splitlinesOrEmpty (cs : List Char) : List (List Char) :=
  match splitlines cs with
  | [] => [[]]
  | ls => ls

/-! ## wrap_lines (converter.py lines 19-27) -/

/-- The while loop of lines 24-27: starting at index `start`, repeatedly
yield `line[start : start + maxChars]` and advance `start` by `maxChars`
while `start < len(line)`.  The loop only terminates when `maxChars` is
positive, so the hypothesis `hm` is part of the definition; the fuel
model `chunkLoop` below covers the non-positive case. -/
def chunkFrom (line : List Char) (maxChars : Nat) (hm : 0 < maxChars)
    (start : Nat) : List (List Char) :=
  if h : start < line.length then
    (line.drop start).take maxChars :: chunkFrom line maxChars hm (start + maxChars)
  else []
termination_by line.length - start
decreasing_by omega

/-- The body of the for loop of lines 20-27 for one source line: a line
within the width is yielded unchanged, a longer line is sliced by the
while loop. -/
def wrapLine (maxChars : Nat) (hm : 0 < maxChars) (line : List Char) :
    List (List Char) :=
  if line.length ≤ maxChars then [line]
  else chunkFrom line maxChars hm 0

/-- wrap_lines (lines 19-27): the full sequence of segments the generator
yields, for a positive width. -/
def wrap_lines (text : List Char) (maxChars : Nat) (hm : 0 < maxChars) :
    List (List Char) :=
  (splitlinesOrEmpty text).flatMap (wrapLine maxChars hm)

/-! ## Fuel model of the wrap_lines generator

The Python while loop of lines 24-27 has no built-in termination; the
fuel model returns `none` when the loop has not finished within `fuel`
iterations, so the loop terminates on an input exactly when some fuel
yields `some`. -/

/-- One-to-one fuel translation of the while loop of lines 24-27. -/
def chunkLoop (line : List Char) (maxChars : Nat) :
    Nat → Nat → Option (List (List Char))
  | 0, start => if start < line.length then none else some []
  | fuel + 1, start =>
      if start < line.length then
        (chunkLoop line maxChars fuel (start + maxChars)).map
          (fun rest => (line.drop start).take maxChars :: rest)
      else some []

/-- Fuel version of `wrapLine`. -/
def wrapLineFuel (maxChars fuel : Nat) (line : List Char) :
    Option (List (List Char)) :=
  if line.length ≤ maxChars then some [line]
  else chunkLoop line maxChars fuel 0

/-- Sequence a list of fallible computations, failing if any fails. -/
def mapOption (f : α → Option β) : List α → Option (List β)
  | [] => some []
  | a :: as =>
      match f a, mapOption f as with
      | some b, some bs => some (b :: bs)
      | _, _ => none

/-- Fuel version of `wrap_lines`: `some` exactly when every per-line
while loop finishes within `fuel` iterations. -/
def wrapLinesFuel (text : List Char) (maxChars fuel : Nat) :
    Option (List (List Char)) :=
  (mapOption (wrapLineFuel maxChars fuel) (splitlinesOrEmpty text)).map
    List.flatten

/-! ## Encoding resolution (converter.py lines 43-51) -/

/-- A Python codec: `some` on success, `none` when it would raise
UnicodeDecodeError. -/
abbrev DecodeFn := List Byte → Option (List Char)

/-- Python `data.decode("latin-1")`: total, byte b maps to code point b. -/
def latin1Decode (data : List Byte) : List Char :=
  data.map fun b => Char.ofNat b.val

/-- The for loop of lines 44-49: attempt each codec in order, stopping at
the first success. -/
def firstDecode (data : List Byte) : List DecodeFn → Option (List Char)
  | [] => none
  | e :: es =>
      match e data with
      | some t => some t
      | none => firstDecode data es

/-- The ordered tuple ("utf-8-sig", "utf-16", "latin-1") of line 44, with
the two stdlib codecs as parameters and latin-1 concrete. -/
def encodingList (u8sig u16 : DecodeFn) : List DecodeFn :=
  [u8sig, u16, fun d => some (latin1Decode d)]

/-- Lines 43-51: the attempt loop followed by the `text is None` fallback
`data.decode("utf-8", errors="ignore")` (a total function, parameter
`utf8ignore`). -/
def resolveText (u8sig u16 : DecodeFn) (utf8ignore : List Byte → List Char)
    (data : List Byte) : List Char :=
  match firstDecode data (encodingList u8sig u16) with
  | some t => t
  | none => utf8ignore data

/-! ## Page rendering (converter.py lines 55-71) -/

/-- MARGIN = 72 points (line 15). -/
def MARGIN : Int := 72

/-- LINE_HEIGHT = 14 points (line 16). -/
def LINE_HEIGHT : Int := 14

/-- LETTER page width in points (reportlab.lib.pagesizes.LETTER). -/
def pageWidth : Int := 612

/-- LETTER page height in points (reportlab.lib.pagesizes.LETTER). -/
def pageHeight : Int := 792

/-- A reportlab font selection (name and size). -/
structure Font where
  name : String
  size : Int
deriving DecidableEq

/-- The single font the source ever sets: setFont("Helvetica", 11). -/
def helvetica11 : Font := { name := "Helvetica", size := 11 }

/-- One drawString call: position, active font, and the drawn text. -/
structure DrawOp where
  x : Int
  y : Int
  font : Font
  text : List Char
deriving DecidableEq

/-- The canvas state during the render loop: finalized pages, the
operations on the current page, the cursor height y, and the active
font. -/
structure RenderState where
  pages : List (List DrawOp)
  current : List DrawOp
  y : Int
  font : Font
deriving DecidableEq

/-- The title string of line 60: "Source: " followed by the file name. -/
def titleText (name : List Char) : List Char :=
  ("Source: " : String).toList ++ name

/-- Lines 55-61: fresh canvas, setFont, draw the title at the top margin,
advance the cursor by two line heights. -/
def renderInit (name : List Char) : RenderState :=
  { pages := []
    current := [{ x := MARGIN, y := pageHeight - MARGIN, font := helvetica11,
                  text := titleText name }]
    y := pageHeight - MARGIN - 2 * LINE_HEIGHT
    font := helvetica11 }

/-- One iteration of the for loop of lines 63-69: page-break when the
cursor has reached the bottom margin (showPage, setFont, cursor to top
margin), then drawString at the left margin and advance the cursor down
one line height. -/
def drawSegment (st : RenderState) (seg : List Char) : RenderState :=
  let st1 :=
    if st.y ≤ MARGIN then
      { pages := st.pages ++ [st.current], current := [],
        y := pageHeight - MARGIN, font := helvetica11 }
    else st
  { st1 with
      current := st1.current ++
        [{ x := MARGIN, y := st1.y, font := st1.font, text := seg }],
      y := st1.y - LINE_HEIGHT }

/-- Lines 55-71: render every segment, then doc.save() finalizes the
last page.  The result is the page list of the produced document. -/
def renderDoc (name : List Char) (segs : List (List Char)) :
    List (List DrawOp) :=
  let fin := segs.foldl drawSegment (renderInit name)
  fin.pages ++ [fin.current]

/-! ## convert and main (converter.py lines 30-87) -/

/-- A filesystem path (opaque; resolve() is the identity in the model). -/
abbrev Path := List Char

/-- Python `Path(p).name`: the component after the last slash. -/
def basename (p : Path) : Path :=
  p.foldl (fun acc c => if c = '/' then [] else acc ++ [c]) []

/-- Python `Path(p).parent` as a string: everything before the final
component. -/
def parentDir (p : Path) : Path :=
  p.take (p.length - (basename p).length - 1)

/-- What convert produced: a verbatim copy of the input bytes (line 39)
or a freshly rendered document (lines 55-71). -/
inductive ConvertOutput where
  | copied (data : List Byte)
  | rendered (doc : List (List DrawOp))
deriving DecidableEq

/-- A filesystem side effect of convert, in program order. -/
inductive FsEffect where
  | mkdirParents (path : Path)
  | write (path : Path) (data : List Byte)
deriving DecidableEq

/-- The read oracle: file contents by path, `none` when absent. -/
abbrev FS := Path → Option (List Byte)

/-- convert (lines 30-71): missing-input check, read, PDF sniff with
verbatim copy, otherwise decode / wrap / render.  Returns the outcome
(`Except.error` models the raised exception) with the ordered list of
filesystem effects performed. -/
def convert (u8sig u16 : DecodeFn) (utf8ignore : List Byte → List Char)
    (ser : List (List DrawOp) → List Byte) (fs : FS)
    (jsfPath pdfPath : Path) :
    Except (List Char) ConvertOutput × List FsEffect :=
  match fs jsfPath with
  | none => (Except.error (("Missing input: " : String).toList ++ jsfPath), [])
  | some data =>
      if startswith data pdfSignature then
        (Except.ok (ConvertOutput.copied data),
         [FsEffect.mkdirParents (parentDir pdfPath),
          FsEffect.write pdfPath data])
      else
        let text := resolveText u8sig u16 utf8ignore data
        let doc := renderDoc (basename jsfPath)
          (wrap_lines text 100 (by decide))
        (Except.ok (ConvertOutput.rendered doc),
         [FsEffect.mkdirParents (parentDir pdfPath),
          FsEffect.write pdfPath (ser doc)])

/-- The observable outcome of main: exit code, messages printed to
stderr, and the filesystem effects performed. -/
structure MainResult where
  exitCode : Nat
  stderr : List (List Char)
  effects : List FsEffect
deriving DecidableEq

/-- The usage message of line 76. -/
def usageMsg : List Char :=
  ("Usage: converter.py <input.jsf> <output.pdf>" : String).toList

/-- main (lines 74-87): argv is the full sys.argv (argv[0] is the program
name).  Wrong argument count prints the usage message and exits 1 with no
filesystem access; otherwise convert runs and any raised error is caught,
reported as "Conversion failed: ..." and mapped to exit code 1. -/
def mainRun (u8sig u16 : DecodeFn) (utf8ignore : List Byte → List Char)
    (ser : List (List DrawOp) → List Byte) (fs : FS)
    (argv : List Path) : MainResult :=
  if argv.length ≠ 3 then
    { exitCode := 1, stderr := [usageMsg], effects := [] }
  else
    match convert u8sig u16 utf8ignore ser fs (argv.getD 1 []) (argv.getD 2 []) with
    | (Except.error e, effs) =>
        { exitCode := 1,
          stderr := [("Conversion failed: " : String).toList ++ e],
          effects := effs }
    | (Except.ok _, effs) =>
        { exitCode := 0, stderr := [], effects := effs }

/-! ## Helper lemmas: the splitter -/

theorem splitPieces_cons_eq (c : Char) (cs : List Char)
    (h1 : ∀ cs2, c = '\r' → cs = '\n' :: cs2 → False) :
    splitPieces (c :: cs) =
      if isLineBreak c then [] :: splitPieces cs
      else consHead c (splitPieces cs) := by
  rw [splitPieces.eq_def]
  split
  · rename_i heq
    exact absurd heq (by simp)
  · rename_i cs2 heq
    rw [List.cons.injEq] at heq
    exact (h1 cs2 heq.1 heq.2).elim
  · rename_i c2 cs2 hne heq
    rw [List.cons.injEq] at heq
    rw [heq.1, heq.2]

theorem mem_consHead (c : Char) (ps : List (List Char)) (p : List Char)
    (hp : p ∈ consHead c ps) :
    (p = [c] ∧ ps = []) ∨ (∃ q qs, ps = q :: qs ∧ (p = c :: q ∨ p ∈ qs)) := by
  match ps with
  | [] =>
    left
    simp [consHead] at hp
    exact ⟨hp, rfl⟩
  | q :: qs =>
    right
    refine ⟨q, qs, rfl, ?_⟩
    simp [consHead] at hp
    exact hp

theorem splitPieces_facts (cs : List Char) :
    ∀ p ∈ splitPieces cs, p.length ≤ cs.length ∧ ∀ c ∈ p, isLineBreak c = false := by
  induction cs using splitPieces.induct with
  | case1 =>
    intro p hp
    simp [splitPieces] at hp
    simp [hp]
  | case2 cs ih =>
    intro p hp
    rw [splitPieces] at hp
    rcases List.mem_cons.mp hp with h | h
    · simp [h]
    · have := ih p h
      simp only [List.length_cons]
      exact ⟨by omega, this.2⟩
  | case3 c cs h1 h2 ih =>
    intro p hp
    rw [splitPieces_cons_eq c cs (fun cs2 hc hcs => h1 cs2 hc hcs), if_pos h2] at hp
    rcases List.mem_cons.mp hp with h | h
    · simp [h]
    · have := ih p h
      simp only [List.length_cons]
      exact ⟨by omega, this.2⟩
  | case4 c cs h1 h2 ih =>
    intro p hp
    rw [splitPieces_cons_eq c cs (fun cs2 hc hcs => h1 cs2 hc hcs),
      if_neg h2] at hp
    rcases mem_consHead c (splitPieces cs) p hp with ⟨hpc, hnil⟩ | ⟨q, qs, hqs, hq⟩
    · subst hpc
      constructor
      · simp
      · intro c2 hc2
        rw [List.mem_singleton] at hc2
        subst hc2
        exact Bool.not_eq_true _ |>.mp h2
    · rcases hq with hq | hq
      · have := ih q (by rw [hqs]; exact List.mem_cons_self q qs)
        subst hq
        simp only [List.length_cons]
        refine ⟨by omega, ?_⟩
        intro c2 hc2
        rcases List.mem_cons.mp hc2 with rfl | hc2
        · exact Bool.not_eq_true _ |>.mp h2
        · exact this.2 c2 hc2
      · have := ih p (by rw [hqs]; exact List.mem_cons_of_mem q hq)
        simp only [List.length_cons]
        exact ⟨by omega, this.2⟩

theorem mem_splitlines {cs : List Char} {p : List Char}
    (hp : p ∈ splitlines cs) : p ∈ splitPieces cs := by
  rw [splitlines] at hp
  by_cases hlast : (splitPieces cs).getLast? = some []
  · rw [if_pos hlast] at hp
    exact (List.dropLast_sublist _).subset hp
  · rw [if_neg hlast] at hp
    exact hp

theorem mem_splitlinesOrEmpty {cs : List Char} {p : List Char}
    (hp : p ∈ splitlinesOrEmpty cs) : p = [] ∨ p ∈ splitlines cs := by
  rw [splitlinesOrEmpty] at hp
  split at hp
  · left
    simpa using hp
  · right
    exact hp

theorem splitlinesOrEmpty_facts (cs : List Char) :
    ∀ p ∈ splitlinesOrEmpty cs,
      p.length ≤ cs.length ∧ ∀ c ∈ p, isLineBreak c = false := by
  intro p hp
  rcases mem_splitlinesOrEmpty hp with rfl | hp
  · simp
  · exact splitPieces_facts cs p (mem_splitlines hp)

/-! ## Helper lemmas: the chunking loop -/

theorem chunkFrom_of_le (line : List Char) (m : Nat) (hm : 0 < m)
    (start : Nat) (h : line.length ≤ start) :
    chunkFrom line m hm start = [] := by
  rw [chunkFrom, dif_neg (by omega)]

theorem chunkFrom_of_lt (line : List Char) (m : Nat) (hm : 0 < m)
    (start : Nat) (h : start < line.length) :
    chunkFrom line m hm start =
      (line.drop start).take m :: chunkFrom line m hm (start + m) := by
  rw [chunkFrom]
  rw [dif_pos h]

theorem chunkFrom_flatten (line : List Char) (m : Nat) (hm : 0 < m) :
    ∀ n start, line.length - start ≤ n →
      (chunkFrom line m hm start).flatten = line.drop start := by
  intro n
  induction n with
  | zero =>
    intro start h
    rw [chunkFrom_of_le line m hm start (by omega)]
    rw [List.drop_eq_nil_of_le (by omega)]
    rfl
  | succ n ih =>
    intro start h
    by_cases hlt : start < line.length
    · rw [chunkFrom_of_lt line m hm start hlt]
      rw [List.flatten_cons, ih (start + m) (by omega)]
      rw [← List.drop_drop, List.take_append_drop]
    · rw [chunkFrom_of_le line m hm start (by omega)]
      rw [List.drop_eq_nil_of_le (by omega)]
      rfl

theorem chunkFrom_mem (line : List Char) (m : Nat) (hm : 0 < m) :
    ∀ n start, line.length - start ≤ n →
      ∀ seg ∈ chunkFrom line m hm start,
        seg.length ≤ m ∧ seg ≠ [] ∧ ∃ pre suf, line = pre ++ seg ++ suf := by
  intro n
  induction n with
  | zero =>
    intro start h seg hseg
    rw [chunkFrom_of_le line m hm start (by omega)] at hseg
    exact absurd hseg (List.not_mem_nil seg)
  | succ n ih =>
    intro start h seg hseg
    by_cases hlt : start < line.length
    · rw [chunkFrom_of_lt line m hm start hlt] at hseg
      rcases List.mem_cons.mp hseg with rfl | hseg
      · refine ⟨by simp [List.length_take], ?_, ?_⟩
        · have hlen : 0 < ((line.drop start).take m).length := by
            simp only [List.length_take, List.length_drop]
            omega
          intro hnil
          rw [hnil] at hlen
          exact absurd hlen (by simp)
        · refine ⟨line.take start, line.drop (start + m), ?_⟩
          rw [List.append_assoc, ← List.drop_drop, List.take_append_drop,
            List.take_append_drop]
      · exact ih (start + m) (by omega) seg hseg
    · rw [chunkFrom_of_le line m hm start (by omega)] at hseg
      exact absurd hseg (List.not_mem_nil seg)

theorem chunkFrom_getD (line : List Char) (m : Nat) (hm : 0 < m) :
    ∀ n start, line.length - start ≤ n →
      ∀ i, i + 1 < (chunkFrom line m hm start).length →
        ((chunkFrom line m hm start).getD i []).length = m := by
  intro n
  induction n with
  | zero =>
    intro start h i hi
    rw [chunkFrom_of_le line m hm start (by omega)] at hi
    simp at hi
  | succ n ih =>
    intro start h i hi
    by_cases hlt : start < line.length
    · rw [chunkFrom_of_lt line m hm start hlt] at hi ⊢
      match i with
      | 0 =>
        simp only [List.length_cons] at hi
        have hrest : chunkFrom line m hm (start + m) ≠ [] := by
          intro hnil
          rw [hnil] at hi
          simp at hi
        have hmore : start + m < line.length := by
          by_contra hge
          exact hrest (chunkFrom_of_le line m hm (start + m) (by omega))
        simp only [List.getD_cons_zero, List.length_take, List.length_drop]
        omega
      | j + 1 =>
        simp only [List.length_cons] at hi
        rw [List.getD_cons_succ]
        exact ih (start + m) (by omega) j (by omega)
    · rw [chunkFrom_of_le line m hm start (by omega)] at hi
      simp at hi

theorem chunkLoop_agrees (line : List Char) (m : Nat) (hm : 0 < m) :
    ∀ fuel start, line.length - start ≤ fuel →
      chunkLoop line m fuel start = some (chunkFrom line m hm start) := by
  intro fuel
  induction fuel with
  | zero =>
    intro start h
    rw [chunkLoop, if_neg (by omega)]
    rw [chunkFrom_of_le line m hm start (by omega)]
  | succ fuel ih =>
    intro start h
    by_cases hlt : start < line.length
    · rw [chunkLoop, if_pos hlt, ih (start + m) (by omega)]
      rw [chunkFrom_of_lt line m hm start hlt]
      rfl
    · rw [chunkLoop, if_neg hlt]
      rw [chunkFrom_of_le line m hm start (by omega)]

theorem chunkLoop_zero_none (line : List Char) :
    ∀ fuel start, start < line.length →
      chunkLoop line 0 fuel start = none := by
  intro fuel
  induction fuel with
  | zero =>
    intro start h
    rw [chunkLoop, if_pos h]
  | succ fuel ih =>
    intro start h
    rw [chunkLoop, if_pos h]
    rw [Nat.add_zero, ih start h]
    rfl

/-! ## Helper lemmas: wrapLine and wrap_lines -/

theorem wrapLine_mem (m : Nat) (hm : 0 < m) (line : List Char) :
    ∀ seg ∈ wrapLine m hm line,
      seg.length ≤ m ∧ ∃ pre suf, line = pre ++ seg ++ suf := by
  intro seg hseg
  rw [wrapLine] at hseg
  split at hseg
  · rename_i hle
    rw [List.mem_singleton] at hseg
    subst hseg
    exact ⟨hle, [], [], by simp⟩
  · have := chunkFrom_mem line m hm (line.length - 0) 0 (le_refl _) seg hseg
    exact ⟨this.1, this.2.2⟩

theorem mem_wrap_lines {text : List Char} {m : Nat} {hm : 0 < m}
    {seg : List Char} (hseg : seg ∈ wrap_lines text m hm) :
    ∃ line ∈ splitlinesOrEmpty text, seg ∈ wrapLine m hm line := by
  rw [wrap_lines] at hseg
  exact List.mem_flatMap.mp hseg

theorem mapOption_eq_some (f : α → Option β) (g : α → β) :
    ∀ l : List α, (∀ a ∈ l, f a = some (g a)) →
      mapOption f l = some (l.map g) := by
  intro l
  induction l with
  | nil => intro _; rfl
  | cons a as ih =>
    intro h
    rw [mapOption, h a (List.mem_cons_self a as),
      ih (fun b hb => h b (List.mem_cons_of_mem a hb))]
    rfl

/-! ## Helper lemmas: rendering -/

theorem foldl_drawSegment_inv (segs : List (List Char)) :
    ∀ st : RenderState,
      (∀ page ∈ st.pages, ∀ op ∈ page, MARGIN < op.y) →
      (∀ op ∈ st.current, MARGIN < op.y) →
      (∀ page ∈ (segs.foldl drawSegment st).pages, ∀ op ∈ page, MARGIN < op.y) ∧
        (∀ op ∈ (segs.foldl drawSegment st).current, MARGIN < op.y) := by
  induction segs with
  | nil =>
    intro st h1 h2
    exact ⟨h1, h2⟩
  | cons seg segs ih =>
    intro st h1 h2
    rw [List.foldl_cons]
    by_cases hy : st.y ≤ MARGIN
    · refine ih _ ?_ ?_
      · intro page hpage op hop
        simp only [drawSegment, if_pos hy] at hpage
        rcases List.mem_append.mp hpage with hpage | hpage
        · exact h1 page hpage op hop
        · rw [List.mem_singleton] at hpage
          subst hpage
          exact h2 op hop
      · intro op hop
        simp only [drawSegment, if_pos hy] at hop
        rw [List.nil_append, List.mem_singleton] at hop
        subst hop
        show MARGIN < pageHeight - MARGIN
        decide
    · refine ih _ ?_ ?_
      · intro page hpage op hop
        simp only [drawSegment, if_neg hy] at hpage
        exact h1 page hpage op hop
      · intro op hop
        simp only [drawSegment, if_neg hy] at hop
        rcases List.mem_append.mp hop with hop | hop
        · exact h2 op hop
        · rw [List.mem_singleton] at hop
          subst hop
          show MARGIN < st.y
          omega

/-! ## Claim theorems -/

/-- C1: for every input whose bytes begin with the 5-byte signature
%PDF-, convert produces a verbatim copy: the single write carries exactly
the input bytes, and the outcome is the copy constructor, so no text
decoding, line wrapping, or page rendering takes place. -/
theorem pdf_passthrough (u8sig u16 : DecodeFn)
    (utf8ignore : List Byte → List Char) (ser : List (List DrawOp) → List Byte)
    (fs : FS) (jsfPath pdfPath : Path) (data : List Byte)
    (hread : fs jsfPath = some data)
    (hsig : startswith data pdfSignature = true) :
    convert u8sig u16 utf8ignore ser fs jsfPath pdfPath =
      (Except.ok (ConvertOutput.copied data),
       [FsEffect.mkdirParents (parentDir pdfPath),
        FsEffect.write pdfPath data]) := by
  unfold convert
  rw [hread]
  simp [hsig]

theorem pdf_passthrough_witness :
    (fun p : Path => if p = ("in.jsf" : String).toList
        then some pdfSignature else none) (("in.jsf" : String).toList)
      = some pdfSignature ∧
    startswith pdfSignature pdfSignature = true ∧
    convert (fun _ => none) (fun _ => none) (fun _ => []) (fun _ => [])
      (fun p : Path => if p = ("in.jsf" : String).toList
        then some pdfSignature else none)
      (("in.jsf" : String).toList) (("out.pdf" : String).toList) =
      (Except.ok (ConvertOutput.copied pdfSignature),
       [FsEffect.mkdirParents (parentDir (("out.pdf" : String).toList)),
        FsEffect.write (("out.pdf" : String).toList) pdfSignature]) :=
  ⟨by decide, by decide,
    pdf_passthrough (fun _ => none) (fun _ => none) (fun _ => []) (fun _ => [])
      (fun p : Path => if p = ("in.jsf" : String).toList
        then some pdfSignature else none)
      (("in.jsf" : String).toList) (("out.pdf" : String).toList) pdfSignature
      (by decide) (by decide)⟩

/-- C2: the encoding resolver attempts utf-8-sig, then utf-16, then
latin-1, in that exact order, returning the first success; the attempt
loop always succeeds (latin-1 is total), so the resolver never fails and
the final utf-8 errors-ignore fallback is unreachable: the result does
not depend on that fallback function at all. -/
theorem resolveText_total_ordered (u8sig u16 : DecodeFn)
    (utf8ignore : List Byte → List Char) (data : List Byte) :
    (firstDecode data (encodingList u8sig u16)).isSome = true ∧
    resolveText u8sig u16 utf8ignore data =
      (match u8sig data with
       | some t => t
       | none =>
         match u16 data with
         | some t => t
         | none => latin1Decode data) ∧
    (∀ g : List Byte → List Char,
      resolveText u8sig u16 g data = resolveText u8sig u16 utf8ignore data) := by
  cases h8 : u8sig data with
  | some t => simp [resolveText, encodingList, firstDecode, h8]
  | none =>
    cases h16 : u16 data with
    | some t => simp [resolveText, encodingList, firstDecode, h8, h16]
    | none => simp [resolveText, encodingList, firstDecode, h8, h16]

/-- C3: for a positive maximum width, every segment wrap_lines yields has
length at most that width. -/
theorem wrap_lines_width_bound (text : List Char) (m : Nat) (hm : 0 < m) :
    ∀ seg ∈ wrap_lines text m hm, seg.length ≤ m := by
  intro seg hseg
  rcases mem_wrap_lines hseg with ⟨line, hline, hseg2⟩
  exact (wrapLine_mem m hm line seg hseg2).1

theorem wrap_lines_width_bound_witness :
    wrap_lines (("ab" : String).toList) 100 (by decide) = [['a', 'b']] ∧
    (['a', 'b'] : List Char).length ≤ 100 :=
  ⟨by decide,
    wrap_lines_width_bound (("ab" : String).toList) 100 (by decide)
      ['a', 'b'] (by decide)⟩

/-- C4: a source line within the maximum width is yielded unchanged;
otherwise it is sliced into consecutive chunks in original character
order whose concatenation is exactly the source line, every chunk fits
the width, and every chunk but the last has length exactly the width. -/
theorem wrapLine_chunk_spec (line : List Char) (m : Nat) (hm : 0 < m) :
    (line.length ≤ m → wrapLine m hm line = [line]) ∧
    (wrapLine m hm line).flatten = line ∧
    (∀ i, i + 1 < (wrapLine m hm line).length →
      ((wrapLine m hm line).getD i []).length = m) ∧
    (∀ seg ∈ wrapLine m hm line, seg.length ≤ m) := by
  refine ⟨?_, ?_, ?_, ?_⟩
  · intro hle
    rw [wrapLine, if_pos hle]
  · rw [wrapLine]
    split
    · simp
    · rw [chunkFrom_flatten line m hm (line.length - 0) 0 (le_refl _)]
      rfl
  · intro i hi
    rw [wrapLine] at hi ⊢
    split at hi
    · simp at hi
    · rename_i hgt
      rw [if_neg hgt]
      exact chunkFrom_getD line m hm (line.length - 0) 0 (le_refl _) i hi
  · intro seg hseg
    exact (wrapLine_mem m hm line seg hseg).1

theorem wrapLine_chunk_spec_witness :
    (wrapLine 2 (by decide) ['a', 'b', 'c']).flatten = ['a', 'b', 'c'] :=
  (wrapLine_chunk_spec ['a', 'b', 'c'] 2 (by decide)).2.1

/-- C5: no drawString ever happens at a cursor height at or below the
bottom margin; when the cursor has reached the margin the page is
finalized, the font and cursor are reset and only then is the segment
drawn; every draw advances the cursor down by one line height. -/
theorem render_above_margin (name : List Char) (segs : List (List Char)) :
    (∀ page ∈ renderDoc name segs, ∀ op ∈ page, MARGIN < op.y) ∧
    (∀ st : RenderState, ∀ seg : List Char, st.y ≤ MARGIN →
      drawSegment st seg =
        { pages := st.pages ++ [st.current],
          current := [{ x := MARGIN, y := pageHeight - MARGIN,
                        font := helvetica11, text := seg }],
          y := pageHeight - MARGIN - LINE_HEIGHT,
          font := helvetica11 }) ∧
    (∀ st : RenderState, ∀ seg : List Char, ¬ st.y ≤ MARGIN →
      drawSegment st seg =
        { pages := st.pages,
          current := st.current ++
            [{ x := MARGIN, y := st.y, font := st.font, text := seg }],
          y := st.y - LINE_HEIGHT,
          font := st.font }) := by
  refine ⟨?_, ?_, ?_⟩
  · have hinit1 : ∀ page ∈ (renderInit name).pages, ∀ op ∈ page, MARGIN < op.y := by
      intro page hpage
      simp [renderInit] at hpage
    have hinit2 : ∀ op ∈ (renderInit name).current, MARGIN < op.y := by
      intro op hop
      simp only [renderInit, List.mem_singleton] at hop
      subst hop
      show MARGIN < pageHeight - MARGIN
      decide
    have hinv := foldl_drawSegment_inv segs (renderInit name) hinit1 hinit2
    intro page hpage
    rw [renderDoc] at hpage
    rcases List.mem_append.mp hpage with hpage | hpage
    · exact hinv.1 page hpage
    · rw [List.mem_singleton] at hpage
      subst hpage
      exact hinv.2
  · intro st seg hy
    simp [drawSegment, if_pos hy]
  · intro st seg hy
    simp [drawSegment, if_neg hy]

/-- C6: convert on a missing input raises exactly the "Missing input"
error naming the missing path, performing no filesystem effect; main
catches it, reports it on stderr (the message contains the path) and
exits with code 1, still with no filesystem effect. -/
theorem missing_input_error (u8sig u16 : DecodeFn)
    (utf8ignore : List Byte → List Char) (ser : List (List DrawOp) → List Byte)
    (fs : FS) (prog jsfPath pdfPath : Path)
    (h : fs jsfPath = none) :
    convert u8sig u16 utf8ignore ser fs jsfPath pdfPath =
      (Except.error (("Missing input: " : String).toList ++ jsfPath), []) ∧
    mainRun u8sig u16 utf8ignore ser fs [prog, jsfPath, pdfPath] =
      { exitCode := 1,
        stderr := [("Conversion failed: " : String).toList ++
          (("Missing input: " : String).toList ++ jsfPath)],
        effects := [] } ∧
    ∃ pre suf,
      ("Conversion failed: " : String).toList ++
        (("Missing input: " : String).toList ++ jsfPath) =
        pre ++ jsfPath ++ suf := by
  have hc : convert u8sig u16 utf8ignore ser fs jsfPath pdfPath =
      (Except.error (("Missing input: " : String).toList ++ jsfPath), []) := by
    unfold convert
    rw [h]
  refine ⟨hc, ?_, ?_⟩
  · rw [mainRun, if_neg (by simp)]
    have hj : ([prog, jsfPath, pdfPath].getD 1 []) = jsfPath := rfl
    have hp : ([prog, jsfPath, pdfPath].getD 2 []) = pdfPath := rfl
    rw [hj, hp, hc]
  · exact ⟨("Conversion failed: " : String).toList ++
      ("Missing input: " : String).toList, [], by simp⟩

theorem missing_input_error_witness :
    convert (fun _ => none) (fun _ => none) (fun _ => []) (fun _ => [])
      (fun _ => none) (("a.jsf" : String).toList) (("b.pdf" : String).toList) =
      (Except.error (("Missing input: " : String).toList ++
        ("a.jsf" : String).toList), []) :=
  (missing_input_error (fun _ => none) (fun _ => none) (fun _ => [])
    (fun _ => []) (fun _ => none) (("prog" : String).toList)
    (("a.jsf" : String).toList) (("b.pdf" : String).toList) rfl).1

/-- C7: with an argument count other than exactly three entries in
sys.argv (the program name plus two positional arguments), main prints
the usage message, exits with code 1, performs no filesystem effect, and
its behavior does not depend on the filesystem at all. -/
theorem usage_error (u8sig u16 : DecodeFn)
    (utf8ignore : List Byte → List Char) (ser : List (List DrawOp) → List Byte)
    (fs : FS) (argv : List Path)
    (h : argv.length ≠ 3) :
    mainRun u8sig u16 utf8ignore ser fs argv =
      { exitCode := 1, stderr := [usageMsg], effects := [] } ∧
    ∀ fs2 : FS, mainRun u8sig u16 utf8ignore ser fs2 argv =
      mainRun u8sig u16 utf8ignore ser fs argv := by
  constructor
  · rw [mainRun, if_pos h]
  · intro fs2
    rw [mainRun, if_pos h, mainRun, if_pos h]

theorem usage_error_witness :
    mainRun (fun _ => none) (fun _ => none) (fun _ => []) (fun _ => [])
      (fun _ => none) [] =
      { exitCode := 1, stderr := [usageMsg], effects := [] } :=
  (usage_error (fun _ => none) (fun _ => none) (fun _ => []) (fun _ => [])
    (fun _ => none) [] (by decide)).1

/-- C8: on empty text wrap_lines yields exactly one segment, the empty
string, and rendering an empty non-PDF input produces exactly one page
holding the title line and that single empty segment. -/
theorem empty_input_single_segment (m : Nat) (hm : 0 < m) (name : List Char) :
    wrap_lines [] m hm = [[]] ∧
    renderDoc name (wrap_lines [] m hm) =
      [[{ x := MARGIN, y := pageHeight - MARGIN, font := helvetica11,
          text := titleText name },
        { x := MARGIN, y := pageHeight - MARGIN - 2 * LINE_HEIGHT,
          font := helvetica11, text := [] }]] := by
  have h1 : wrap_lines [] m hm = [[]] := by
    have hsplit : splitlinesOrEmpty [] = [[]] := rfl
    rw [wrap_lines, hsplit]
    simp only [List.flatMap_cons, List.flatMap_nil, List.append_nil]
    rw [wrapLine, if_pos (by simp : ([] : List Char).length ≤ m)]
  refine ⟨h1, ?_⟩
  rw [h1]
  rfl

theorem empty_input_single_segment_witness :
    wrap_lines [] 100 (by decide) = [[]] :=
  (empty_input_single_segment 100 (by decide) (("f.jsf" : String).toList)).1

/-- C9 (amended): for every positive maximum width the wrap_lines
generator terminates, yielding the finite segment list: some iteration
fuel makes the fuel-bounded translation of its while loop return that
list.  (With width 0 the loop never advances; see the counterexample.) -/
theorem wrap_lines_finite_pos_width (text : List Char) (m : Nat) (hm : 0 < m) :
    ∃ fuel, wrapLinesFuel text m fuel = some (wrap_lines text m hm) := by
  refine ⟨text.length, ?_⟩
  rw [wrapLinesFuel, wrap_lines]
  rw [mapOption_eq_some (wrapLineFuel m text.length) (wrapLine m hm)
    (splitlinesOrEmpty text) ?_]
  · simp [List.flatMap_def]
  · intro line hline
    rw [wrapLineFuel, wrapLine]
    split
    · rfl
    · have hlen : line.length ≤ text.length :=
        (splitlinesOrEmpty_facts text line hline).1
      exact chunkLoop_agrees line m hm text.length 0 (by omega)

theorem wrap_lines_finite_pos_width_witness :
    ∃ fuel, wrapLinesFuel (("ab" : String).toList) 1 fuel =
      some (wrap_lines (("ab" : String).toList) 1 (by decide)) :=
  wrap_lines_finite_pos_width (("ab" : String).toList) 1 (by decide)

/-- C9 (counterexample to the claim as stated): with maximum width 0 and
the two-character input "aa", no amount of fuel completes the while loop
of wrap_lines, because the start index never advances: the generator is
infinite, not finite. -/
theorem wrap_lines_zero_width_diverges :
    ¬ ∃ fuel segs, wrapLinesFuel (("aa" : String).toList) 0 fuel = some segs := by
  rintro ⟨fuel, segs, h⟩
  have hsplit : splitlinesOrEmpty (("aa" : String).toList) = [['a', 'a']] := by
    decide
  have hnone : wrapLineFuel 0 fuel ['a', 'a'] = none := by
    rw [wrapLineFuel, if_neg (by decide)]
    exact chunkLoop_zero_none ['a', 'a'] fuel 0 (by decide)
  rw [wrapLinesFuel, hsplit, mapOption, hnone] at h
  simp at h

/-- C10: every segment wrap_lines yields is free of line-break
characters, and is a contiguous slice (possibly the whole) of one of the
newline-delimited source lines. -/
theorem segments_break_free (text : List Char) (m : Nat) (hm : 0 < m) :
    ∀ seg ∈ wrap_lines text m hm,
      (∀ c ∈ seg, isLineBreak c = false) ∧
      ∃ line ∈ splitlinesOrEmpty text, ∃ pre suf, line = pre ++ seg ++ suf := by
  intro seg hseg
  rcases mem_wrap_lines hseg with ⟨line, hline, hseg2⟩
  have hfacts := splitlinesOrEmpty_facts text line hline
  rcases (wrapLine_mem m hm line seg hseg2).2 with ⟨pre, suf, heq⟩
  refine ⟨?_, line, hline, pre, suf, heq⟩
  intro c hc
  apply hfacts.2 c
  rw [heq]
  simp [hc]

theorem segments_break_free_witness :
    (∀ c ∈ (['a', 'b'] : List Char), isLineBreak c = false) ∧
    ∃ line ∈ splitlinesOrEmpty (("ab" : String).toList),
      ∃ pre suf, line = pre ++ ['a', 'b'] ++ suf :=
  segments_break_free (("ab" : String).toList) 100 (by decide)
    ['a', 'b'] (by decide)

end Converter
